import Mathlib

/-!
Verification development for the mcp-documentation-server repository.

The TypeScript sources are shallowly embedded in Lean:

* vector components are exact rationals (the claims under study are about the
  exact arithmetic of the scoring formulas, not about float rounding);
* the one place where IEEE-754 semantics is observable — the division
  `dotProduct / (Math.sqrt normA * Math.sqrt normB)` evaluating to NaN on
  0/0 — is modelled explicitly by the `JSScore` type;
* the on-disk document directory is modelled as an association list of
  documents keyed by id, and a JavaScript `Map` as an insertion-ordered
  association list;
* external collaborators (the embedding model, the sha-256 hash from the
  `crypto` module, `Math.random`-based id generation, `Date.now`) enter as
  function arguments of the operations that use them;
* fallible code returns `Except`.
-/

namespace MCPDoc

/-! ## JavaScript primitives used by the sources -/

/-- ECMAScript `Array.prototype.slice(start, end)` for integer arguments:
negative indices count from the end of the array, and the selected range is
clamped to `[0, length]`. -/
def jsSlice {α : Type} (l : List α) (s e : ℤ) : List α :=
  let len : ℤ := l.length
  let k : ℤ := if s < 0 then max (len + s) 0 else min s len
  let f : ℤ := if e < 0 then max (len + e) 0 else min e len
  (l.take f.toNat).drop k.toNat

/-- ECMAScript `Map.prototype.set` on an insertion-ordered association list:
overwriting an existing key keeps its position, a new key is appended. -/
def jsMapSet {β : Type} (m : List (String × β)) (k : String) (v : β) :
    List (String × β) :=
  if m.any (fun p => p.1 == k) then
    m.map (fun p => if p.1 == k then (k, v) else p)
  else
    m ++ [(k, v)]

/-- ECMAScript `Map.prototype.get`. -/
def jsMapGet {β : Type} (m : List (String × β)) (k : String) : Option β :=
  (m.find? (fun p => p.1 == k)).map Prod.snd

/-- ECMAScript `Map.prototype.delete`: removes the entry of the key; on an
association list this erases the first pair carrying the key. -/
def jsMapDelete {β : Type} (m : List (String × β)) (k : String) :
    List (String × β) :=
  m.eraseP (fun p => p.1 == k)

/-- ECMAScript `String.prototype.trim`: strip whitespace from both ends.
(`Char.isWhitespace` stands in for the JavaScript whitespace set; every
theorem below uses the same function on both sides of its statement, so the
exact character class is immaterial.) -/
def jsTrim (s : String) : String :=
  ⟨((s.data.dropWhile Char.isWhitespace).reverse.dropWhile
      Char.isWhitespace).reverse⟩

/-- ECMAScript `String.prototype.toLowerCase`, as a character-wise map. -/
def jsToLowerCase (s : String) : String :=
  ⟨s.data.map Char.toLower⟩

/-- Stable sort by a boolean comparator, `le x y` meaning "keeping `x` before
`y` is consistent with the comparator" (for the sort callback `c` of the
source, `le x y` decides `c x y ≤ 0`).  ECMAScript requires
`Array.prototype.sort` to be stable, and for a consistent comparator the
sorted stable permutation is unique, so this stable insertion sort computes
exactly the array produced by the engine.  (For an inconsistent comparator —
scores containing NaN — ECMAScript leaves the resulting permutation
implementation-defined; no theorem below relies on this model's particular
permutation in that case.) -/
def jsInsert {α : Type} (le : α → α → Bool) (x : α) : List α → List α
  | [] => [x]
  | y :: ys => if le x y then x :: y :: ys else y :: jsInsert le x ys

/-- See `jsInsert`. -/
def jsStableSort {α : Type} (le : α → α → Bool) : List α → List α
  | [] => []
  | x :: xs => jsInsert le x (jsStableSort le xs)

/-! ## Scores

The value computed by both `cosineSimilarity` implementations is the
JavaScript float expression `dot / (Math.sqrt nA * Math.sqrt nB)` with
`nA`, `nB` sums of squares.  Since `Math.sqrt nA * Math.sqrt nB` is zero
exactly when `nA * nB = 0`, and in that case the numerator `dot` is zero as
well (a vector of zero norm is the zero vector, see
`dotProduct_eq_zero_left/right` below), the expression is either NaN (the
0/0 case) or the finite real `dot / √(nA·nB)`.  `JSScore` stores that
outcome exactly: `fin d n` stands for the real number `d / √n`. -/

inductive JSScore : Type where
  | nan : JSScore
  | fin (dot denSq : ℚ) : JSScore
deriving DecidableEq, Repr

/-- The real value of a finite score (`fin d n` with `0 < n` in all uses);
`nan` is mapped to a junk value, and every theorem mentioning `val` carries
hypotheses ruling the NaN case out. -/
noncomputable def JSScore.val : JSScore → ℝ
  | .nan => 0
  | .fin d n => (d : ℝ) / Real.sqrt (n : ℝ)

/-- A score that denotes an actual real number: finite with a positive
squared denominator.  All scores produced from nonzero vectors are good. -/
def JSScore.IsGood : JSScore → Prop
  | .nan => False
  | .fin _ n => 0 < n

/-- `dotProduct a b` is the loop accumulator `dotProduct` of both
`cosineSimilarity` implementations (only evaluated on equal-length vectors). -/
def dotProduct (a b : List ℚ) : ℚ :=
  (List.zipWith (· * ·) a b).sum

/-- `normSq a` is the loop accumulator `normA` (resp. `normB`):
the sum of the squares of the entries. -/
def normSq (a : List ℚ) : ℚ :=
  (a.map (fun x => x * x)).sum

/-- Decides `d / √n ≤ d' / √n'` for positive `n`, `n'` by sign analysis and
comparison of squares; `searchLe` below uses it to embed the sort comparator
`(a, b) => b.score - a.score`. -/
def finLe (d n d' n' : ℚ) : Bool :=
  decide ((d ≤ 0 ∧ 0 ≤ d') ∨
    (0 < d ∧ 0 < d' ∧ d ^ 2 * n' ≤ d' ^ 2 * n) ∨
    (d < 0 ∧ d' < 0 ∧ d' ^ 2 * n ≤ d ^ 2 * n'))

end MCPDoc

namespace MCPDoc

/-! ## Data model (`src/server.ts`, interfaces `DocumentChunk` / `Document` /
`SearchResult`)

The `metadata` record fields are opaque payload (`Record<string, any>`): no
code path under study reads them, so they are omitted from the embedding. -/

structure DocumentChunk : Type where
  id : String
  document_id : String
  chunk_index : ℕ
  content : String
  /-- `embeddings?: number[]` — `none` models an absent field. -/
  embeddings : Option (List ℚ)
  start_position : ℕ
  end_position : ℕ
deriving DecidableEq, Repr

structure Document : Type where
  id : String
  title : String
  content : String
  chunks : List DocumentChunk
  created_at : String
  updated_at : String
deriving DecidableEq, Repr

structure SearchResult : Type where
  chunk : DocumentChunk
  score : JSScore
deriving DecidableEq, Repr

/-! ## `DocumentManager` of `src/server.ts`

The data directory of JSON files (one `<id>.json` per document) is modelled
as the list of the stored documents; `readFile`/`JSON.parse` of `<id>.json`
becomes lookup by id, `writeFile` becomes `storeWrite`. -/

namespace Server

/-- `DocumentManager.cosineSimilarity` (src/server.ts:172-186).
On a length mismatch the source returns the plain number `0` (`fin 0 1`,
since `0 / √1 = 0`).  Otherwise it returns
`dotProduct / (Math.sqrt normA * Math.sqrt normB)`, which is NaN when
`normA * normB = 0` (then the numerator is 0 as well) and the finite real
`dotProduct / √(normA · normB)` otherwise — note the source has no
zero-norm guard. -/
def cosineSimilarity (a b : List ℚ) : JSScore :=
  if a.length ≠ b.length then .fin 0 1
  else
    let dp := dotProduct a b
    let nA := normSq a
    let nB := normSq b
    if nA * nB = 0 then .nan else .fin dp (nA * nB)

/-- The sort comparator `(a, b) => b.score - a.score` of `searchDocuments`,
as the boolean relation "`comparator a b ≤ 0`", i.e. `b.score ≤ a.score`
(descending).  When either score is NaN the comparator returns NaN, which
ECMAScript treats like `0` (keep the current order): both directions hold. -/
def searchLe (x y : SearchResult) : Bool :=
  match x.score, y.score with
  | .nan, _ => true
  | _, .nan => true
  | .fin d1 n1, .fin d2 n2 => finLe d2 n2 d1 n1

/-- `DocumentManager.getDocument` (src/server.ts:117-124): reading
`<id>.json` succeeds exactly when the document is stored. -/
def getDocument (store : List Document) (id : String) : Option Document :=
  store.find? (fun d => d.id == id)

/-- `DocumentManager.searchDocuments` (src/server.ts:152-170).
`queryEmbedding` is the value produced by the external embedding provider
for the query string; `limit` is the `limit` argument. -/
def searchDocuments (store : List Document) (queryEmbedding : List ℚ)
    (documentId : String) (limit : ℕ) : List SearchResult :=
  match getDocument store documentId with
  | none => []
  | some document =>
      let withEmb := document.chunks.filter (fun c =>
        match c.embeddings with
        | none => false
        | some e => decide (0 < e.length))
      let scored := withEmb.map (fun c =>
        { chunk := c,
          score := cosineSimilarity queryEmbedding (c.embeddings.getD []) })
      (jsStableSort searchLe scored).take limit

/-- `writeFile(this.getDocumentPath(id), ...)`: storing `<id>.json`
overwrites a document with the same id and otherwise adds a new file. -/
def storeWrite (store : List Document) (doc : Document) : List Document :=
  if store.any (fun d => d.id == doc.id) then
    store.map (fun d => if d.id == doc.id then doc else d)
  else
    store ++ [doc]

/-- `DocumentManager.addDocument` (src/server.ts:91-115).
`chunker id content` is the call
`intelligentChunker.createChunks(id, content, …)` (the chunker composes the
external embedding provider and may fail); `genId` is the value of
`this.generateId()` (`Math.random`-based, supplied by the environment); `now`
is `new Date().toISOString()`.  The source awaits the chunker first and only
then writes the document file — a chunker error propagates before anything
is persisted. -/
def addDocument (chunker : String → String → Except String (List DocumentChunk))
    (genId now : String) (store : List Document) (title content : String) :
    Except String (List Document × Document) :=
  match chunker genId content with
  | .error e => .error e
  | .ok cs =>
      let doc : Document :=
        { id := genId, title := title, content := content, chunks := cs,
          created_at := now, updated_at := now }
      .ok (storeWrite store doc, doc)

end Server

/-! ## `FileDocumentStorage` of `src/document-manager.ts` -/

namespace FileStorage

/-- `FileDocumentStorage.cosineSimilarity` (src/document-manager.ts:200-223).
Unlike the server variant this one throws on a length mismatch and has an
explicit zero-norm guard returning the plain number `0`
(`Math.sqrt normA = 0 ∨ Math.sqrt normB = 0` iff `normSq a = 0 ∨ normSq b = 0`). -/
def cosineSimilarity (a b : List ℚ) : Except String JSScore :=
  if a.length ≠ b.length then .error "Vectors must have the same length"
  else
    let dp := dotProduct a b
    let nA := normSq a
    let nB := normSq b
    if nA = 0 ∨ nB = 0 then .ok (.fin 0 1)
    else .ok (.fin dp (nA * nB))

end FileStorage

/-! ## The `get_context_window` tool (src/server.ts:571-608) -/

/-- One element of the returned `window` array: the source projects each
chunk to `{ chunk_index, content }`. -/
structure ContextWindowItem : Type where
  chunk_index : ℕ
  content : String
deriving DecidableEq, Repr

/-- The JSON object returned by the tool. -/
structure ContextWindow : Type where
  window : List ContextWindowItem
  center : ℤ
  total_chunks : ℕ
deriving DecidableEq, Repr

/-- The `execute` body of the `get_context_window` tool
(src/server.ts:580-607): `start = Math.max(0, chunk_index - before)`,
`end = Math.min(total, chunk_index + after + 1)`,
window = `document.chunks.slice(start, end)` projected to
`{chunk_index, content}`, returned with `center = chunk_index` and
`total_chunks = total`.  A missing document is the thrown
"Document or chunk not found" error. -/
def getContextWindow (store : List Document) (document_id : String)
    (chunk_index before after : ℤ) : Except String ContextWindow :=
  match Server.getDocument store document_id with
  | none => .error "Document or chunk not found"
  | some document =>
      let total : ℤ := document.chunks.length
      let start : ℤ := max 0 (chunk_index - before)
      let stop : ℤ := min total (chunk_index + after + 1)
      .ok { window := (jsSlice document.chunks start stop).map (fun c =>
              { chunk_index := c.chunk_index, content := c.content }),
            center := chunk_index,
            total_chunks := document.chunks.length }

end MCPDoc

namespace MCPDoc

/-! ## `EmbeddingCache` of `src/embeddings/embedding-cache.ts`

`createHash('sha256')…digest('hex').substring(0, 16)` comes from the node
`crypto` module: it is an external collaborator, passed to each operation as
the function `hf : String → String` applied to the normalized text.
`Date.now()` likewise enters as the argument `now`. -/

namespace Cache

structure CacheEntry : Type where
  embedding : List ℚ
  timestamp : ℕ
  accessCount : ℕ
deriving DecidableEq, Repr

structure EmbeddingCache : Type where
  /-- `private cache: Map<string, {embedding, timestamp, accessCount}>` -/
  cache : List (String × CacheEntry)
  /-- `private accessOrder: string[]` — least recently used first. -/
  accessOrder : List String
  maxSize : ℕ
  hits : ℕ
  misses : ℕ
deriving DecidableEq, Repr

/-- The normalization step of `EmbeddingCache.hash`:
`text.trim().toLowerCase()`. -/
def normalizeKey (text : String) : String :=
  jsToLowerCase (jsTrim text)

/-- `EmbeddingCache.hash` (embedding-cache.ts:92-97): sha-256 (the external
collaborator `hf`, the node `crypto` hash truncated to 16 hex digits) of the
normalized text. -/
def hashKey (hf : String → String) (text : String) : String :=
  hf (normalizeKey text)

/-- The keys currently stored in the map. -/
def keys (c : EmbeddingCache) : List String :=
  c.cache.map Prod.fst

/-- `EmbeddingCache.updateAccessOrder` (embedding-cache.ts:68-77): remove the
hash from its current position (`indexOf`/`splice` drop the first
occurrence), then push it to the end (most recently used). -/
def updateAccessOrder (c : EmbeddingCache) (hash : String) : EmbeddingCache :=
  { c with accessOrder := c.accessOrder.erase hash ++ [hash] }

/-- `EmbeddingCache.evictLRU` (embedding-cache.ts:82-87): drop the head of
`accessOrder` and delete its map entry; a no-op when `accessOrder` is empty. -/
def evictLRU (c : EmbeddingCache) : EmbeddingCache :=
  match c.accessOrder with
  | [] => c
  | lruHash :: rest =>
      { c with cache := jsMapDelete c.cache lruHash, accessOrder := rest }

/-- `EmbeddingCache.getEmbedding` (embedding-cache.ts:23-41): on a hit the
entry's bookkeeping is updated in place, the hash is marked most recently
used, and the stored vector is returned; on a miss `null` (`none`). -/
def getEmbedding (hf : String → String) (now : ℕ) (c : EmbeddingCache)
    (text : String) : Option (List ℚ) × EmbeddingCache :=
  let hash := hashKey hf text
  match jsMapGet c.cache hash with
  | some cached =>
      let bumped : CacheEntry :=
        { cached with timestamp := now, accessCount := cached.accessCount + 1 }
      let c := { c with cache := jsMapSet c.cache hash bumped }
      let c := updateAccessOrder c hash
      (some cached.embedding, { c with hits := c.hits + 1 })
  | none =>
      (none, { c with misses := c.misses + 1 })

/-- `EmbeddingCache.setEmbedding` (embedding-cache.ts:46-63): evict the LRU
entry first when the map is full and the key is new, then store the entry
(`[...embedding]` copies the array; lists are values here) and mark the hash
most recently used. -/
def setEmbedding (hf : String → String) (now : ℕ) (c : EmbeddingCache)
    (text : String) (embedding : List ℚ) : EmbeddingCache :=
  let hash := hashKey hf text
  let c :=
    if c.cache.length ≥ c.maxSize ∧ ¬ (c.cache.any (fun p => p.1 == hash)) then
      evictLRU c
    else c
  let entry : CacheEntry :=
    { embedding := embedding, timestamp := now, accessCount := 1 }
  let c := { c with cache := jsMapSet c.cache hash entry }
  updateAccessOrder c hash

/-- `EmbeddingCache.clear` (embedding-cache.ts:124-129). -/
def clear (c : EmbeddingCache) : EmbeddingCache :=
  { c with cache := [], accessOrder := [], hits := 0, misses := 0 }

/-- The eviction loop of `EmbeddingCache.resize`
(`while (this.cache.size > this.maxSize) this.evictLRU()`).  Each pass with a
nonempty `accessOrder` shortens it by one; if `accessOrder` is empty while
the map is still too large the source loops forever — the model stops there
instead, a state unreachable from any well-formed cache. -/
def resizeLoop (c : EmbeddingCache) : EmbeddingCache :=
  if c.cache.length > c.maxSize then
    match h : c.accessOrder with
    | [] => c
    | _ :: _ =>
        have : (evictLRU c).accessOrder.length < c.accessOrder.length := by
          simp [evictLRU, h]
        resizeLoop (evictLRU c)
  else c
termination_by c.accessOrder.length

/-- `EmbeddingCache.resize` (embedding-cache.ts:134-141). -/
def resize (c : EmbeddingCache) (newSize : ℕ) : EmbeddingCache :=
  resizeLoop { c with maxSize := newSize }

/-- `EmbeddingCache.preload` (embedding-cache.ts:160-168): `setEmbedding` for
each pair in order.  (The source calls `Date.now()` inside each iteration;
the timestamp value is never read by any control path, so a single `now`
serves for all of them.) -/
def preload (hf : String → String) (now : ℕ) (c : EmbeddingCache)
    (pairs : List (String × List ℚ)) : EmbeddingCache :=
  pairs.foldl (fun c p => setEmbedding hf now c p.1 p.2) c

/-- One element of the `entries` array accepted by `importCache`. -/
structure ImportEntry : Type where
  hash : String
  embedding : List ℚ
  timestamp : ℕ
  accessCount : ℕ
deriving DecidableEq, Repr

/-- The data object accepted by `importCache`.  `maxSize` is optional and
`0` is falsy in `cacheData.maxSize || this.maxSize`. -/
structure CacheExport : Type where
  version : String
  maxSize : Option ℕ
  entries : List ImportEntry
deriving DecidableEq, Repr

/-- The capacity `importCache` installs: `cacheData.maxSize || this.maxSize`. -/
def effectiveMax (c : EmbeddingCache) (d : CacheExport) : ℕ :=
  match d.maxSize with
  | some m => if m = 0 then c.maxSize else m
  | none => c.maxSize

/-- `EmbeddingCache.importCache` (embedding-cache.ts:198-217): reject foreign
versions, otherwise clear, install the imported capacity and insert every
entry — with no capacity check at all. -/
def importCache (c : EmbeddingCache) (d : CacheExport) : EmbeddingCache :=
  if d.version ≠ "1.0" then c
  else
    let c := { clear c with maxSize := effectiveMax c d }
    d.entries.foldl (fun c e =>
      { c with cache := jsMapSet c.cache e.hash
                 { embedding := e.embedding, timestamp := e.timestamp,
                   accessCount := e.accessCount },
               accessOrder := c.accessOrder ++ [e.hash] }) c

/-- Representation invariant tying `accessOrder` to the map: both are
duplicate-free and track exactly the same set of keys.  It holds for the
empty cache of the constructor and is preserved by every operation except
`importCache` on data with duplicate hashes. -/
def WF (c : EmbeddingCache) : Prop :=
  c.accessOrder.Nodup ∧ (keys c).Nodup ∧
    ∀ k : String, k ∈ c.accessOrder ↔ k ∈ keys c

/-- The capacity bound of the claims: the map never holds more entries than
`maxSize`. -/
def SizeInv (c : EmbeddingCache) : Prop :=
  c.cache.length ≤ c.maxSize

end Cache

end MCPDoc

namespace MCPDoc

/-! ## Facts about norms, dot products and the score order -/

theorem normSq_nonneg (a : List ℚ) : 0 ≤ normSq a := by
  apply List.sum_nonneg
  intro x hx
  simp only [List.mem_map] at hx
  obtain ⟨y, -, rfl⟩ := hx
  exact mul_self_nonneg y

theorem normSq_eq_zero_iff {a : List ℚ} : normSq a = 0 ↔ ∀ x ∈ a, x = 0 := by
  induction a with
  | nil => simp [normSq]
  | cons x xs ih =>
      have hx : 0 ≤ x * x := mul_self_nonneg x
      have hxs : 0 ≤ normSq xs := normSq_nonneg xs
      simp only [normSq, List.map_cons, List.sum_cons] at *
      rw [add_eq_zero_iff' hx hxs, mul_self_eq_zero, ih]
      constructor
      · rintro ⟨rfl, h⟩ y hy
        rcases List.mem_cons.mp hy with rfl | hy
        · rfl
        · exact h y hy
      · intro h
        exact ⟨h x (List.mem_cons_self x xs),
               fun y hy => h y (List.mem_cons_of_mem x hy)⟩

/-- A zero-norm vector zeroes the dot product: this is why the unguarded
division of `Server.cosineSimilarity` is `0 / 0 = NaN` (and never
`±Infinity`) on a zero-norm input. -/
theorem dotProduct_eq_zero_right : ∀ {a b : List ℚ}, normSq b = 0 →
    dotProduct a b = 0 := by
  intro a
  induction a with
  | nil => intro b _; simp [dotProduct]
  | cons x xs ih =>
      intro b hb
      cases b with
      | nil => simp [dotProduct]
      | cons y ys =>
          have hz := normSq_eq_zero_iff.mp hb
          have hy : y = 0 := hz y (List.mem_cons_self y ys)
          have hys : normSq ys = 0 := normSq_eq_zero_iff.mpr
            (fun z hz' => hz z (List.mem_cons_of_mem y hz'))
          simp only [dotProduct, List.zipWith_cons_cons, List.sum_cons] at *
          rw [hy, mul_zero, ih hys, add_zero]

/-- Companion of `dotProduct_eq_zero_right` for the first argument. -/
theorem dotProduct_eq_zero_left : ∀ {a b : List ℚ}, normSq a = 0 →
    dotProduct a b = 0 := by
  intro a
  induction a with
  | nil => intro b _; simp [dotProduct]
  | cons x xs ih =>
      intro b ha
      cases b with
      | nil => simp [dotProduct]
      | cons y ys =>
          have hz := normSq_eq_zero_iff.mp ha
          have hx : x = 0 := hz x (List.mem_cons_self x xs)
          have hxs : normSq xs = 0 := normSq_eq_zero_iff.mpr
            (fun z hz' => hz z (List.mem_cons_of_mem x hz'))
          simp only [dotProduct, List.zipWith_cons_cons, List.sum_cons] at *
          rw [hx, zero_mul, ih hxs, add_zero]

/-- `finLe` decides exactly the comparison of the real score values. -/
theorem finLe_iff {d n d' n' : ℚ} (hn : 0 < n) (hn' : 0 < n') :
    finLe d n d' n' = true ↔
      (d : ℝ) / Real.sqrt (n : ℝ) ≤ (d' : ℝ) / Real.sqrt (n' : ℝ) := by
  have hnR : (0 : ℝ) < (n : ℝ) := by exact_mod_cast hn
  have hnR' : (0 : ℝ) < (n' : ℝ) := by exact_mod_cast hn'
  have hsn : 0 < Real.sqrt (n : ℝ) := Real.sqrt_pos.mpr hnR
  have hsn' : 0 < Real.sqrt (n' : ℝ) := Real.sqrt_pos.mpr hnR'
  have hq : Real.sqrt (n : ℝ) ^ 2 = (n : ℝ) := Real.sq_sqrt hnR.le
  have hq' : Real.sqrt (n' : ℝ) ^ 2 = (n' : ℝ) := Real.sq_sqrt hnR'.le
  rw [div_le_div_iff hsn hsn', finLe, decide_eq_true_iff]
  constructor
  · rintro (⟨h1, h2⟩ | ⟨h1, h2, h3⟩ | ⟨h1, h2, h3⟩)
    · have h1' : (d : ℝ) ≤ 0 := by exact_mod_cast h1
      have h2' : (0 : ℝ) ≤ (d' : ℝ) := by exact_mod_cast h2
      nlinarith
    · have h1' : (0 : ℝ) < (d : ℝ) := by exact_mod_cast h1
      have h2' : (0 : ℝ) < (d' : ℝ) := by exact_mod_cast h2
      have h3' : (d : ℝ) ^ 2 * (n' : ℝ) ≤ (d' : ℝ) ^ 2 * (n : ℝ) := by
        exact_mod_cast h3
      have key := (mul_self_le_mul_self_iff
        (mul_nonneg h1'.le hsn'.le) (mul_nonneg h2'.le hsn.le)).mpr
      apply key
      nlinarith
    · have h1' : (d : ℝ) < 0 := by exact_mod_cast h1
      have h2' : (d' : ℝ) < 0 := by exact_mod_cast h2
      have h3' : (d' : ℝ) ^ 2 * (n : ℝ) ≤ (d : ℝ) ^ 2 * (n' : ℝ) := by
        exact_mod_cast h3
      have key := (mul_self_le_mul_self_iff
        (mul_nonneg (neg_nonneg.mpr h2'.le) hsn.le)
        (mul_nonneg (neg_nonneg.mpr h1'.le) hsn'.le)).mpr
      have : -(d' : ℝ) * Real.sqrt (n : ℝ) ≤ -(d : ℝ) * Real.sqrt (n' : ℝ) := by
        apply key
        nlinarith
      linarith
  · intro h
    rcases lt_trichotomy d 0 with hd | hd | hd
    · rcases le_or_lt 0 d' with hd' | hd'
      · exact Or.inl ⟨hd.le, hd'⟩
      · refine Or.inr (Or.inr ⟨hd, hd', ?_⟩)
        have hd'' : (d' : ℝ) < 0 := by exact_mod_cast hd'
        have hdr : (d : ℝ) < 0 := by exact_mod_cast hd
        have key := (mul_self_le_mul_self_iff
          (mul_nonneg (neg_nonneg.mpr hd''.le) hsn.le)
          (mul_nonneg (neg_nonneg.mpr hdr.le) hsn'.le)).mp (by nlinarith)
        have : (d' : ℝ) ^ 2 * (n : ℝ) ≤ (d : ℝ) ^ 2 * (n' : ℝ) := by nlinarith
        exact_mod_cast this
    · subst hd
      refine Or.inl ⟨le_refl 0, ?_⟩
      rw [Rat.cast_zero, zero_mul] at h
      have : (0 : ℝ) ≤ (d' : ℝ) := by nlinarith
      exact_mod_cast this
    · have hdr : (0 : ℝ) < (d : ℝ) := by exact_mod_cast hd
      have hd' : (0 : ℝ) < (d' : ℝ) := by nlinarith
      refine Or.inr (Or.inl ⟨hd, by exact_mod_cast hd', ?_⟩)
      have key := (mul_self_le_mul_self_iff
        (mul_nonneg hdr.le hsn'.le) (mul_nonneg hd'.le hsn.le)).mp h
      have : (d : ℝ) ^ 2 * (n' : ℝ) ≤ (d' : ℝ) ^ 2 * (n : ℝ) := by nlinarith
      exact_mod_cast this

end MCPDoc

namespace MCPDoc

/-! ## Sortedness and stability of `jsStableSort` -/

theorem mem_jsInsert {α : Type} {le : α → α → Bool} {x w : α} :
    ∀ {L : List α}, w ∈ jsInsert le x L ↔ w = x ∨ w ∈ L := by
  intro L
  induction L with
  | nil => simp [jsInsert]
  | cons y ys ih =>
      by_cases h : le x y = true
      · simp [jsInsert, h]
      · simp only [jsInsert, if_neg h, List.mem_cons, ih]
        tauto

theorem jsInsert_perm {α : Type} {le : α → α → Bool} (x : α) :
    ∀ (L : List α), (jsInsert le x L).Perm (x :: L) := by
  intro L
  induction L with
  | nil => simp [jsInsert]
  | cons y ys ih =>
      by_cases h : le x y = true
      · simp [jsInsert, h]
      · rw [jsInsert, if_neg h]
        exact (List.Perm.cons y ih).trans (List.Perm.swap x y ys)

theorem jsStableSort_perm {α : Type} (le : α → α → Bool) :
    ∀ (l : List α), (jsStableSort le l).Perm l := by
  intro l
  induction l with
  | nil => simp [jsStableSort]
  | cons x xs ih =>
      exact (jsInsert_perm x (jsStableSort le xs)).trans (List.Perm.cons x ih)

theorem mem_jsStableSort {α : Type} {le : α → α → Bool} {w : α} {l : List α} :
    w ∈ jsStableSort le l ↔ w ∈ l :=
  (jsStableSort_perm le l).mem_iff

/-- Inserting into a list sorted by "strictly larger value, or equal value
and strictly smaller key" keeps it sorted, provided the comparator agrees
with the value order on all elements involved and the inserted element's key
is smaller than every key in the list (it is the earliest in source order). -/
theorem jsInsert_pairwise {α : Type} {le : α → α → Bool} {val : α → ℝ}
    {key : α → ℕ} {x : α} :
    ∀ {L : List α},
    (∀ a ∈ x :: L, ∀ b ∈ x :: L, (le a b = true ↔ val b ≤ val a)) →
    (∀ y ∈ L, key x < key y) →
    L.Pairwise (fun a b => val b < val a ∨ (val b = val a ∧ key a < key b)) →
    (jsInsert le x L).Pairwise
      (fun a b => val b < val a ∨ (val b = val a ∧ key a < key b)) := by
  intro L
  induction L with
  | nil => intro _ _ _; simp [jsInsert]
  | cons y ys ih =>
      intro hagree hkey hL
      by_cases h : le x y = true
      · have hyx : val y ≤ val x :=
          (hagree x (by simp) y (by simp)).mp h
        rw [jsInsert, if_pos h]
        refine List.Pairwise.cons ?_ hL
        intro z hz
        rcases List.mem_cons.mp hz with rfl | hz'
        · rcases lt_or_eq_of_le hyx with hlt | heq
          · exact Or.inl hlt
          · exact Or.inr ⟨heq, hkey z (by simp)⟩
        · have hyz : val z ≤ val y := by
            rcases List.rel_of_pairwise_cons hL hz' with h1 | ⟨h1, -⟩
            · exact h1.le
            · exact h1.le
          rcases lt_or_eq_of_le (le_trans hyz hyx) with hlt | heq
          · exact Or.inl hlt
          · exact Or.inr ⟨heq, hkey z (List.mem_cons_of_mem y hz')⟩
      · have hxy : val x < val y := by
          have := (hagree x (by simp) y (by simp))
          rcases lt_or_le (val x) (val y) with hlt | hle
          · exact hlt
          · exact absurd (this.mpr hle) h
        rw [jsInsert, if_neg h]
        refine List.Pairwise.cons ?_ ?_
        · intro z hz
          rcases mem_jsInsert.mp hz with rfl | hz'
          · exact Or.inl hxy
          · exact List.rel_of_pairwise_cons hL hz'
        · refine ih ?_ ?_ (List.Pairwise.sublist (List.sublist_cons_self y ys) hL)
          · intro a ha b hb
            refine hagree a ?_ b ?_
            · rcases List.mem_cons.mp ha with rfl | ha'
              · simp
              · simp [List.mem_cons_of_mem, ha']
            · rcases List.mem_cons.mp hb with rfl | hb'
              · simp
              · simp [List.mem_cons_of_mem, hb']
          · intro z hz
            exact hkey z (List.mem_cons_of_mem y hz)

/-- `jsStableSort` on a list whose keys strictly increase (document order)
produces a list sorted by strictly decreasing value with ties in strictly
increasing key order — sortedness plus stability in one statement. -/
theorem jsStableSort_pairwise {α : Type} (le : α → α → Bool) (val : α → ℝ)
    (key : α → ℕ) :
    ∀ {l : List α},
    (∀ a ∈ l, ∀ b ∈ l, (le a b = true ↔ val b ≤ val a)) →
    l.Pairwise (fun a b => key a < key b) →
    (jsStableSort le l).Pairwise
      (fun a b => val b < val a ∨ (val b = val a ∧ key a < key b)) := by
  intro l
  induction l with
  | nil => intro _ _; simp [jsStableSort]
  | cons x xs ih =>
      intro hagree hkey
      rw [jsStableSort]
      refine jsInsert_pairwise ?_ ?_ ?_
      · intro a ha b hb
        refine hagree a ?_ b ?_
        · rcases List.mem_cons.mp ha with rfl | ha'
          · simp
          · exact List.mem_cons_of_mem x (mem_jsStableSort.mp ha')
        · rcases List.mem_cons.mp hb with rfl | hb'
          · simp
          · exact List.mem_cons_of_mem x (mem_jsStableSort.mp hb')
      · intro y hy
        exact (List.rel_of_pairwise_cons hkey) (mem_jsStableSort.mp hy)
      · exact ih
          (fun a ha b hb => hagree a (List.mem_cons_of_mem x ha)
            b (List.mem_cons_of_mem x hb))
          (List.Pairwise.sublist (List.sublist_cons_self x xs) hkey)

end MCPDoc

namespace MCPDoc

/-! ## The comparator agrees with the real score order on good scores -/

theorem searchLe_agree {x y : SearchResult}
    (hx : x.score.IsGood) (hy : y.score.IsGood) :
    (Server.searchLe x y = true ↔ y.score.val ≤ x.score.val) := by
  cases hgx : x.score with
  | nan => rw [hgx] at hx; exact absurd hx (by simp [JSScore.IsGood])
  | fin d1 n1 =>
      cases hgy : y.score with
      | nan => rw [hgy] at hy; exact absurd hy (by simp [JSScore.IsGood])
      | fin d2 n2 =>
          rw [hgx] at hx
          rw [hgy] at hy
          simp only [JSScore.IsGood] at hx hy
          simp only [Server.searchLe, hgx, hgy, JSScore.val]
          exact finLe_iff hy hx

theorem cosineSimilarity_isGood {q e : List ℚ} (hq : normSq q ≠ 0)
    (he : normSq e ≠ 0) : (Server.cosineSimilarity q e).IsGood := by
  unfold Server.cosineSimilarity
  by_cases hlen : q.length ≠ e.length
  · simp [hlen, JSScore.IsGood]
  · have hprod : normSq q * normSq e ≠ 0 := mul_ne_zero hq he
    have hpos : 0 < normSq q * normSq e :=
      lt_of_le_of_ne (mul_nonneg (normSq_nonneg q) (normSq_nonneg e))
        (Ne.symm hprod)
    simp [hlen, hprod, JSScore.IsGood, hpos]

/-- A score the server's cosine produces is either NaN or good: whenever it
is not NaN, its squared denominator is positive. -/
theorem cosineSimilarity_isGood_of_ne_nan {q e : List ℚ}
    (h : Server.cosineSimilarity q e ≠ JSScore.nan) :
    (Server.cosineSimilarity q e).IsGood := by
  unfold Server.cosineSimilarity at h ⊢
  by_cases hlen : q.length ≠ e.length
  · simp [hlen, JSScore.IsGood]
  · by_cases hz : normSq q * normSq e = 0
    · exfalso
      apply h
      simp [hlen, hz]
    · have hpos : 0 < normSq q * normSq e :=
        lt_of_le_of_ne (mul_nonneg (normSq_nonneg q) (normSq_nonneg e))
          (Ne.symm hz)
      simp [hlen, hz, JSScore.IsGood, hpos]

/-! ## Concrete documents used by the closed instances below -/

/-- Chunk 0 of the two-chunk sample document, embedded as the second
standard basis vector. -/
def chunkA : DocumentChunk :=
  { id := "c0", document_id := "doc1", chunk_index := 0, content := "alpha",
    embeddings := some [0, 1], start_position := 0, end_position := 5 }

/-- Chunk 1 of the two-chunk sample document, embedded as the first
standard basis vector. -/
def chunkB : DocumentChunk :=
  { id := "c1", document_id := "doc1", chunk_index := 1, content := "beta",
    embeddings := some [1, 0], start_position := 5, end_position := 10 }

/-- A stored two-chunk document. -/
def docAB : Document :=
  { id := "doc1", title := "sample", content := "alpha beta",
    chunks := [chunkA, chunkB], created_at := "t0", updated_at := "t0" }

/-- A chunk whose embedding dimension (2) differs from the query dimension
used against it. -/
def chunkMis : DocumentChunk :=
  { id := "m0", document_id := "docM", chunk_index := 0, content := "mis",
    embeddings := some [1, 1], start_position := 0, end_position := 3 }

/-- A stored document holding only `chunkMis`. -/
def docMis : Document :=
  { id := "docM", title := "mismatch", content := "mis",
    chunks := [chunkMis], created_at := "t0", updated_at := "t0" }

/-! ## C1 -/

/-- **C1.** The claim says the similarity used to score chunks in
`searchDocuments` returns exactly `0` (never NaN) when either vector has
zero norm.  The chunk scorer `DocumentManager.cosineSimilarity` of
`src/server.ts` has no zero-norm guard and computes `0 / 0 = NaN` on the
zero vector — the guard the spec describes exists only in
`FileDocumentStorage.cosineSimilarity` of `src/document-manager.ts`, which
indeed returns the plain `0` on the same input. -/
theorem C1_server_cosine_zero_norm_is_nan :
    Server.cosineSimilarity [1] [0] = JSScore.nan ∧
    FileStorage.cosineSimilarity [1] [0] = Except.ok (JSScore.fin 0 1) := by
  constructor
  · simp [Server.cosineSimilarity, dotProduct, normSq]
  · simp [FileStorage.cosineSimilarity, dotProduct, normSq]

/-! ## C2 -/

/-- **C2 counterexample.**  The claim says a dimension mismatch during
search is always reported as an error and never mapped to a default score.
Searching the stored document `docMis` (chunk embedding `[1, 1]`, dimension
2) with the one-dimensional query embedding `[1]` returns the chunk with the
silent default score `0` (`fin 0 1`), not an error: the server's
`cosineSimilarity` starts with `if (a.length !== b.length) return 0`. -/
theorem C2_counterexample_mismatch_scores_zero :
    Server.searchDocuments [docMis] [1] "docM" 10 =
      [{ chunk := chunkMis, score := JSScore.fin 0 1 }] := by
  rfl

/-- **C2 (amended).**  `FileDocumentStorage.cosineSimilarity`
(document-level search, src/document-manager.ts) does throw on a length
mismatch; but the chunk-level scorer `DocumentManager.cosineSimilarity`
(src/server.ts), the one `searchDocuments` uses, silently returns the
default score `0` instead of reporting an error. -/
theorem C2_mismatch_throws_in_storage_only {a b : List ℚ}
    (h : a.length ≠ b.length) :
    FileStorage.cosineSimilarity a b =
      Except.error "Vectors must have the same length" ∧
    Server.cosineSimilarity a b = JSScore.fin 0 1 := by
  constructor
  · simp [FileStorage.cosineSimilarity, h]
  · simp [Server.cosineSimilarity, h]

/-- Witness for `C2_mismatch_throws_in_storage_only` at `a = [1]`,
`b = [1, 1]`. -/
theorem C2_mismatch_throws_in_storage_only_witness :
    FileStorage.cosineSimilarity [1] [1, 1] =
      Except.error "Vectors must have the same length" ∧
    Server.cosineSimilarity [1] [1, 1] = JSScore.fin 0 1 :=
  C2_mismatch_throws_in_storage_only (by decide)

end MCPDoc

namespace MCPDoc

/-! ## C3 -/

/-- ECMAScript `<=` on score values, as the claim's "sorted in
non-ascending order of score" reads it: for finite scores the comparison of
the real values, while a comparison involving NaN never holds (IEEE-754).
In particular no list containing a NaN score next to any other score is
sorted, in any arrangement. -/
def JSScore.jsLe : JSScore → JSScore → Prop
  | .fin d n, .fin d' n' =>
      (d : ℝ) / Real.sqrt (n : ℝ) ≤ (d' : ℝ) / Real.sqrt (n' : ℝ)
  | _, _ => False

/-- A chunk carrying the zero vector as its embedding (nonzero length, so
the search filter keeps it). -/
def chunkZero : DocumentChunk :=
  { id := "z0", document_id := "docN", chunk_index := 0, content := "zero",
    embeddings := some [0], start_position := 0, end_position := 4 }

/-- A chunk carrying a unit embedding of the same dimension. -/
def chunkUnit : DocumentChunk :=
  { id := "z1", document_id := "docN", chunk_index := 1, content := "unit",
    embeddings := some [1], start_position := 4, end_position := 8 }

/-- A stored document holding `chunkZero` and `chunkUnit`. -/
def docZeroEmb : Document :=
  { id := "docN", title := "zero-emb", content := "zero unit",
    chunks := [chunkZero, chunkUnit], created_at := "t0", updated_at := "t0" }

/-- **C3 counterexample.**  The claim quantifies over every existing
document and query, but on `docZeroEmb` (one zero-vector chunk embedding,
one unit one) with query embedding `[1]` the zero chunk is scored NaN (the
C1 bug), and the returned list is not sorted in non-ascending order of
score: the adjacent comparison `jsLe` against the NaN score does not hold —
nor would it in any other arrangement of these results, so the conclusion
does not depend on which permutation the engine's implementation-defined
sort of an inconsistent comparator produces. -/
theorem C3_counterexample_nan_breaks_ranking :
    Server.searchDocuments [docZeroEmb] [1] "docN" 10 =
      [{ chunk := chunkZero, score := JSScore.nan },
       { chunk := chunkUnit, score := JSScore.fin 1 1 }] ∧
    ¬ (Server.searchDocuments [docZeroEmb] [1] "docN" 10).Pairwise
        (fun x y => JSScore.jsLe y.score x.score) := by
  have heval : Server.searchDocuments [docZeroEmb] [1] "docN" 10 =
      [{ chunk := chunkZero, score := JSScore.nan },
       { chunk := chunkUnit, score := JSScore.fin 1 1 }] := by
    simp [Server.searchDocuments, Server.getDocument, docZeroEmb, chunkZero,
      chunkUnit, jsStableSort, jsInsert, Server.searchLe,
      Server.cosineSimilarity, dotProduct, normSq]
  refine ⟨heval, ?_⟩
  rw [heval]
  intro h
  exact List.rel_of_pairwise_cons h (List.mem_cons_self _ _)

/-- **C3 (amended).**  For an existing document (`hfind`) whose chunks are
listed in strictly ascending `chunk_index` order (the spec's own data-model
invariant), provided no scored chunk receives a NaN score (`hnonan`; by the
C1 bug NaN arises exactly when a dimension-matching scored pair has a zero
norm — absent and empty embeddings are filtered out before scoring and need
no proviso), `searchDocuments` returns at most `limit` results, sorted by
non-ascending score with ties broken by ascending `chunk_index`: every pair
of results in order satisfies "strictly larger score, or equal score and
strictly smaller chunk index". -/
theorem C3_searchDocuments_ranking (store : List Document) (q : List ℚ)
    (documentId : String) (limit : ℕ) (doc : Document)
    (hfind : Server.getDocument store documentId = some doc)
    (hidx : doc.chunks.Pairwise (fun c c' => c.chunk_index < c'.chunk_index))
    (hnonan : ∀ c ∈ doc.chunks, ∀ e, c.embeddings = some e → e ≠ [] →
      Server.cosineSimilarity q e ≠ JSScore.nan) :
    (Server.searchDocuments store q documentId limit).length ≤ limit ∧
    (Server.searchDocuments store q documentId limit).Pairwise
      (fun x y => y.score.val < x.score.val ∨
        (y.score.val = x.score.val ∧
          x.chunk.chunk_index < y.chunk.chunk_index)) := by
  unfold Server.searchDocuments
  rw [hfind]
  simp only
  constructor
  · exact List.length_take_le _ _
  · apply List.Pairwise.sublist (List.take_sublist _ _)
    apply jsStableSort_pairwise Server.searchLe
      (fun r : SearchResult => r.score.val)
      (fun r : SearchResult => r.chunk.chunk_index)
    · intro a ha b hb
      have good : ∀ r : SearchResult,
          r ∈ (doc.chunks.filter (fun c =>
            match c.embeddings with
            | none => false
            | some e => decide (0 < e.length))).map (fun c =>
              { chunk := c,
                score := Server.cosineSimilarity q (c.embeddings.getD []) }) →
          r.score.IsGood := by
        intro r hr
        simp only [List.mem_map, List.mem_filter] at hr
        obtain ⟨c, ⟨hcmem, hcpred⟩, rfl⟩ := hr
        cases hce : c.embeddings with
        | none => rw [hce] at hcpred; simp at hcpred
        | some e =>
            rw [hce] at hcpred
            simp only [decide_eq_true_eq] at hcpred
            have hne : e ≠ [] := by
              intro h0
              rw [h0] at hcpred
              simp at hcpred
            simp only [hce, Option.getD_some]
            exact cosineSimilarity_isGood_of_ne_nan (hnonan c hcmem e hce hne)
      exact searchLe_agree (good a ha) (good b hb)
    · apply List.pairwise_map.mpr
      apply List.Pairwise.filter _
      exact hidx

/-- Witness for `C3_searchDocuments_ranking` on the stored document
`docAB` with query embedding `[1, 0]` and limit `10`. -/
theorem C3_searchDocuments_ranking_witness :
    (Server.searchDocuments [docAB] [1, 0] "doc1" 10).length ≤ 10 ∧
    (Server.searchDocuments [docAB] [1, 0] "doc1" 10).Pairwise
      (fun x y => y.score.val < x.score.val ∨
        (y.score.val = x.score.val ∧
          x.chunk.chunk_index < y.chunk.chunk_index)) := by
  refine C3_searchDocuments_ranking [docAB] [1, 0] "doc1" 10 docAB ?_ ?_ ?_
  · rfl
  · simp [docAB, chunkA, chunkB]
  · intro c hc e he hne
    simp only [docAB, List.mem_cons, List.not_mem_nil, or_false] at hc
    rcases hc with rfl | rfl
    · simp only [chunkA, Option.some.injEq] at he
      subst he
      simp [Server.cosineSimilarity, dotProduct, normSq]
    · simp only [chunkB, Option.some.injEq] at he
      subst he
      simp [Server.cosineSimilarity, dotProduct, normSq]

end MCPDoc

namespace MCPDoc

/-! ## C4 -/

/-- For non-negative bounds `jsSlice` is plain take-then-drop: the selected
elements are exactly the positions in `[s, e)`. -/
theorem jsSlice_of_nonneg {α : Type} (l : List α) {s e : ℤ}
    (hs : 0 ≤ s) (he : 0 ≤ e) :
    jsSlice l s e = (l.take e.toNat).drop s.toNat := by
  simp only [jsSlice]
  rw [if_neg (by omega), if_neg (by omega)]
  have htake : l.take (min e (l.length : ℤ)).toNat = l.take e.toNat := by
    rcases le_or_lt e (l.length : ℤ) with h | h
    · rw [min_eq_left h]
    · rw [min_eq_right h.le]
      have h1 : ((l.length : ℤ)).toNat = l.length := Int.toNat_natCast _
      rw [h1, List.take_length, List.take_of_length_le (by omega)]
  rw [htake]
  rcases le_or_lt s (l.length : ℤ) with h | h
  · rw [min_eq_left h]
  · rw [min_eq_right h.le]
    have h1 : ((l.length : ℤ)).toNat = l.length := Int.toNat_natCast _
    rw [h1]
    have hlen : (l.take e.toNat).length ≤ l.length := by
      rw [List.length_take]; omega
    rw [List.drop_eq_nil_of_le hlen, List.drop_eq_nil_of_le (by omega)]

/-- **C4 (amended).**  For an existing document, non-negative `before` and
`after`, and any `chunk_index` with `0 ≤ chunk_index + after + 1` (every
non-negative `chunk_index` qualifies), `get_context_window` returns exactly
the contiguous slice of chunks at positions
`[max(0, chunk_index-before), min(total, chunk_index+after+1))` in original
order, with `center = chunk_index` and `total_chunks = total`.  (The
restriction on `chunk_index` is forced by `C4_counterexample`: for
`chunk_index + after + 1 < 0` the ECMAScript `slice` reads its negative end
argument as an offset from the end of the array and can return a non-empty
window where the claimed interval is empty.) -/
theorem C4_context_window_slice (store : List Document) (documentId : String)
    (doc : Document) (ci before after : ℤ)
    (hfind : Server.getDocument store documentId = some doc)
    (hb : 0 ≤ before) (ha : 0 ≤ after) (hci : 0 ≤ ci + after + 1) :
    getContextWindow store documentId ci before after = Except.ok
      { window := ((doc.chunks.take
            (min (doc.chunks.length : ℤ) (ci + after + 1)).toNat).drop
              (max 0 (ci - before)).toNat).map
            (fun c => { chunk_index := c.chunk_index, content := c.content }),
        center := ci, total_chunks := doc.chunks.length } := by
  have hs : (0 : ℤ) ≤ max 0 (ci - before) := le_max_left 0 _
  have he : (0 : ℤ) ≤ min (doc.chunks.length : ℤ) (ci + after + 1) :=
    le_min (by omega) hci
  simp only [getContextWindow, hfind]
  rw [jsSlice_of_nonneg doc.chunks hs he]

/-- Five bare chunks (no embeddings — context-window retrieval never reads
them) and two sample documents for the context-window instances. -/
def bareChunk (i : ℕ) (s : String) : DocumentChunk :=
  { id := s, document_id := "ctx", chunk_index := i, content := s,
    embeddings := none, start_position := 0, end_position := 0 }

/-- A stored five-chunk document. -/
def docFive : Document :=
  { id := "doc5", title := "five", content := "k0 k1 k2 k3 k4",
    chunks := [bareChunk 0 "k0", bareChunk 1 "k1", bareChunk 2 "k2",
               bareChunk 3 "k3", bareChunk 4 "k4"],
    created_at := "t0", updated_at := "t0" }

/-- A stored three-chunk document. -/
def docThree : Document :=
  { id := "doc3", title := "three", content := "a b c",
    chunks := [bareChunk 0 "a", bareChunk 1 "b", bareChunk 2 "c"],
    created_at := "t0", updated_at := "t0" }

/-- Witness for `C4_context_window_slice`: on the five-chunk document with
`chunk_index = 0`, `before = 2`, `after = 1` the window is chunks `[0, 1]`
(clamped at the lower bound) with `center = 0`, `total_chunks = 5` — the
spec's own example. -/
theorem C4_context_window_slice_witness :
    getContextWindow [docFive] "doc5" 0 2 1 = Except.ok
      { window := [{ chunk_index := 0, content := "k0" },
                   { chunk_index := 1, content := "k1" }],
        center := 0, total_chunks := 5 } := by
  rw [C4_context_window_slice [docFive] "doc5" docFive 0 2 1 rfl
    (by decide) (by decide) (by decide)]
  rfl

/-- **C4 counterexample.**  At `chunk_index = -2`, `before = after = 0` on
the stored three-chunk document the code returns the first two chunks
(`slice(0, -1)` counts the negative end from the end of the array), while
the interval `[max(0, -2), min(3, -1)) = [0, -1)` of the claim is empty:
the claim as stated is false for this (admittedly degenerate) input. -/
theorem C4_counterexample_negative_index :
    getContextWindow [docThree] "doc3" (-2) 0 0 = Except.ok
      { window := [{ chunk_index := 0, content := "a" },
                   { chunk_index := 1, content := "b" }],
        center := -2, total_chunks := 3 } ∧
    ((docThree.chunks.take
        (min (docThree.chunks.length : ℤ) (-2 + 0 + 1)).toNat).drop
          (max 0 (-2 - 0)).toNat).map
        (fun c => ContextWindowItem.mk c.chunk_index c.content) = [] := by
  constructor
  · rfl
  · rfl

end MCPDoc

namespace MCPDoc

/-! ## C10 -/

/-- **C10.**  Every result returned by `searchDocuments` comes from a chunk
of the document that carries a present, non-empty `embeddings` vector:
chunks with an absent or empty embedding are silently excluded (the filter
`chunk.embeddings && chunk.embeddings.length > 0` runs before scoring), and
the call never fails. -/
theorem C10_search_scores_only_embedded_chunks (store : List Document)
    (q : List ℚ) (documentId : String) (limit : ℕ) (doc : Document)
    (hfind : Server.getDocument store documentId = some doc) :
    ∀ r ∈ Server.searchDocuments store q documentId limit,
      r.chunk ∈ doc.chunks ∧ ∃ e, r.chunk.embeddings = some e ∧ e ≠ [] := by
  intro r hr
  unfold Server.searchDocuments at hr
  rw [hfind] at hr
  simp only at hr
  have hr' := List.mem_of_mem_take hr
  rw [mem_jsStableSort] at hr'
  simp only [List.mem_map, List.mem_filter] at hr'
  obtain ⟨c, ⟨hcm, hcp⟩, rfl⟩ := hr'
  cases hce : c.embeddings with
  | none => rw [hce] at hcp; simp at hcp
  | some e =>
      rw [hce] at hcp
      simp only [decide_eq_true_eq] at hcp
      refine ⟨hcm, e, rfl, ?_⟩
      intro h
      rw [h] at hcp
      simp at hcp

/-- A chunk with an absent `embeddings` field. -/
def chunkNoEmb : DocumentChunk :=
  { id := "n0", document_id := "docE", chunk_index := 0, content := "bare",
    embeddings := none, start_position := 0, end_position := 4 }

/-- A chunk with an empty `embeddings` array. -/
def chunkEmptyEmb : DocumentChunk :=
  { id := "n1", document_id := "docE", chunk_index := 1, content := "empty",
    embeddings := some [], start_position := 4, end_position := 9 }

/-- A chunk with a one-dimensional embedding. -/
def chunkOneEmb : DocumentChunk :=
  { id := "n2", document_id := "docE", chunk_index := 2, content := "one",
    embeddings := some [1], start_position := 9, end_position := 12 }

/-- A stored document mixing absent, empty and present embeddings. -/
def docEmb : Document :=
  { id := "docE", title := "emb", content := "bare empty one",
    chunks := [chunkNoEmb, chunkEmptyEmb, chunkOneEmb],
    created_at := "t0", updated_at := "t0" }

/-- Witness for `C10_search_scores_only_embedded_chunks` on `docEmb`: the
single returned result is the chunk with the present non-empty embedding. -/
theorem C10_search_scores_only_embedded_chunks_witness :
    ({ chunk := chunkOneEmb, score := JSScore.fin 1 1 } : SearchResult) ∈
      Server.searchDocuments [docEmb] [1] "docE" 10 ∧
    (chunkOneEmb ∈ docEmb.chunks ∧
      ∃ e, chunkOneEmb.embeddings = some e ∧ e ≠ []) := by
  have hmem : ({ chunk := chunkOneEmb, score := JSScore.fin 1 1 } :
      SearchResult) ∈ Server.searchDocuments [docEmb] [1] "docE" 10 := by
    simp [Server.searchDocuments, Server.getDocument, docEmb, chunkNoEmb,
      chunkEmptyEmb, chunkOneEmb, jsStableSort, jsInsert,
      Server.cosineSimilarity, dotProduct, normSq]
  exact ⟨hmem, C10_search_scores_only_embedded_chunks [docEmb] [1] "docE" 10
    docEmb rfl _ hmem⟩

/-! ## C9 -/

/-- **C9.**  If the chunker (which embeds each chunk through the provider)
fails, `addDocument` fails as a whole with that error before anything is
written: the store is untouched, so `getDocument` for the attempted id still
reports "not found" and no partially-chunked document is observable. -/
theorem C9_addDocument_atomic_on_chunker_failure
    (chunker : String → String → Except String (List DocumentChunk))
    (genId now : String) (store : List Document) (title content e : String)
    (hfail : chunker genId content = Except.error e)
    (hfresh : genId ∉ store.map Document.id) :
    Server.addDocument chunker genId now store title content =
      Except.error e ∧
    Server.getDocument store genId = none := by
  constructor
  · unfold Server.addDocument
    rw [hfail]
  · unfold Server.getDocument
    rw [List.find?_eq_none]
    intro d hd hbeq
    apply hfresh
    have : d.id = genId := by
      simpa using hbeq
    rw [← this]
    exact List.mem_map_of_mem Document.id hd

/-- Witness for `C9_addDocument_atomic_on_chunker_failure`: a chunker whose
provider raises, run against the store holding `docAB` with the fresh id
"fresh1". -/
theorem C9_addDocument_atomic_on_chunker_failure_witness :
    Server.addDocument (fun _ _ => Except.error "embedding provider failed")
      "fresh1" "t1" [docAB] "title" "text" =
      Except.error "embedding provider failed" ∧
    Server.getDocument [docAB] "fresh1" = none :=
  C9_addDocument_atomic_on_chunker_failure _ "fresh1" "t1" [docAB]
    "title" "text" "embedding provider failed" rfl (by decide)

/-! ## C8 -/

/-- A stored document with which new content collides. -/
def docDup : Document :=
  { id := "id1", title := "T", content := "same text", chunks := [],
    created_at := "t0", updated_at := "t0" }

/-- The document the second `addDocument` call of the C8 counterexample
creates: same content, fresh random id. -/
def docDup2 : Document :=
  { id := "id2", title := "T", content := "same text", chunks := [],
    created_at := "t1", updated_at := "t1" }

/-- **C8 counterexample.**  `addDocument` of `src/server.ts` performs no
content-hash lookup: adding content identical to the stored `docDup`
(first conjunct, with a chunker returning no chunks) creates a second live
document under the fresh random id instead of short-circuiting to "id1";
and the chunker is invoked despite the duplicate (second conjunct: its
error surfaces), so no duplicate detection happens before chunking or
embedding work. -/
theorem C8_counterexample_duplicate_content_not_detected :
    Server.addDocument (fun _ _ => Except.ok []) "id2" "t1" [docDup]
      "T" "same text" = Except.ok ([docDup, docDup2], docDup2) ∧
    Server.addDocument (fun _ _ => Except.error "chunker invoked") "id2" "t1"
      [docDup] "T" "same text" = Except.error "chunker invoked" := by
  constructor
  · rfl
  · rfl

/-- **C8 (amended).**  Creation is never short-circuited: whatever the
store already contains — in particular when a stored document has exactly
the content being added (`hdup`) — `addDocument` always consults the
chunker (an error of the chunker is the error of the call) and on success
always persists a new document under the freshly generated id, growing the
store by one document. -/
theorem C8_addDocument_never_dedups
    (chunker : String → String → Except String (List DocumentChunk))
    (genId now : String) (store : List Document) (title content : String)
    (hdup : ∃ d ∈ store, d.content = content)
    (hnew : genId ∉ store.map Document.id) :
    (∀ e, chunker genId content = Except.error e →
      Server.addDocument chunker genId now store title content =
        Except.error e) ∧
    (∀ cs, chunker genId content = Except.ok cs →
      ∃ doc, Server.addDocument chunker genId now store title content =
          Except.ok (store ++ [doc], doc) ∧
        doc.id = genId ∧ (store ++ [doc]).length = store.length + 1) := by
  constructor
  · intro e he
    unfold Server.addDocument
    rw [he]
  · intro cs hcs
    refine ⟨{ id := genId, title := title, content := content, chunks := cs,
              created_at := now, updated_at := now }, ?_, rfl, ?_⟩
    · have hany : store.any (fun d => d.id == genId) = false := by
        rw [List.any_eq_false]
        intro d hd
        simp only [beq_iff_eq]
        intro hid
        exact hnew (hid ▸ List.mem_map_of_mem Document.id hd)
      simp [Server.addDocument, hcs, Server.storeWrite, hany]
    · simp

/-- Witness for `C8_addDocument_never_dedups` with the duplicate content
"same text" already stored as `docDup`. -/
theorem C8_addDocument_never_dedups_witness :
    ∃ doc, Server.addDocument (fun _ _ => Except.ok []) "id2" "t1" [docDup]
        "T" "same text" = Except.ok ([docDup] ++ [doc], doc) ∧
      doc.id = "id2" ∧ ([docDup] ++ [doc]).length = [docDup].length + 1 :=
  (C8_addDocument_never_dedups (fun _ _ => Except.ok []) "id2" "t1" [docDup]
    "T" "same text" ⟨docDup, by simp, rfl⟩ (by decide)).2 [] rfl

end MCPDoc

namespace MCPDoc

/-! ## Association-list facts about the JavaScript `Map` model -/

theorem any_keys_iff {β : Type} {m : List (String × β)} {k : String} :
    (m.any fun p => p.1 == k) = true ↔ k ∈ m.map Prod.fst := by
  simp only [List.any_eq_true, List.mem_map, beq_iff_eq]

theorem keys_jsMapSet_of_mem {β : Type} {m : List (String × β)} {k : String}
    (h : (m.any fun p => p.1 == k) = true) (v : β) :
    (jsMapSet m k v).map Prod.fst = m.map Prod.fst := by
  unfold jsMapSet
  rw [if_pos h, List.map_map]
  apply List.map_congr_left
  intro p hp
  by_cases hb : p.1 = k
  · simp [hb]
  · simp [beq_iff_eq, hb]

theorem keys_jsMapSet_of_not_mem {β : Type} {m : List (String × β)}
    {k : String} (h : (m.any fun p => p.1 == k) = false) (v : β) :
    (jsMapSet m k v).map Prod.fst = m.map Prod.fst ++ [k] := by
  unfold jsMapSet
  rw [if_neg (by simp [h]), List.map_append]
  rfl

theorem length_jsMapSet_of_mem {β : Type} {m : List (String × β)} {k : String}
    (h : (m.any fun p => p.1 == k) = true) (v : β) :
    (jsMapSet m k v).length = m.length := by
  unfold jsMapSet
  rw [if_pos h, List.length_map]

theorem length_jsMapSet_of_not_mem {β : Type} {m : List (String × β)}
    {k : String} (h : (m.any fun p => p.1 == k) = false) (v : β) :
    (jsMapSet m k v).length = m.length + 1 := by
  unfold jsMapSet
  rw [if_neg (by simp [h]), List.length_append, List.length_cons,
    List.length_nil]

theorem jsMapGet_jsMapSet_self {β : Type} (m : List (String × β)) (k : String)
    (v : β) : jsMapGet (jsMapSet m k v) k = some v := by
  unfold jsMapSet jsMapGet
  by_cases h : (m.any fun p => p.1 == k) = true
  · rw [if_pos h]
    obtain ⟨p0, hp0, hp0k⟩ := List.any_eq_true.mp h
    have hfun : ((fun p : String × β => p.1 == k) ∘
        fun p : String × β => if p.1 == k then (k, v) else p) =
        fun p : String × β => p.1 == k := by
      funext p
      by_cases hb : p.1 = k
      · simp [hb]
      · simp [beq_iff_eq, hb]
    rw [List.find?_map, hfun]
    have hsome : (m.find? fun p => p.1 == k).isSome = true :=
      List.find?_isSome.mpr ⟨p0, hp0, hp0k⟩
    obtain ⟨q, hq⟩ := Option.isSome_iff_exists.mp hsome
    have hqk : (q.1 == k) = true := by
      have h' := List.find?_some hq
      simpa using h'
    rw [hq]
    simp [beq_iff_eq.mp hqk]
  · rw [if_neg h, List.find?_append]
    have hnone : (m.find? fun p => p.1 == k) = none :=
      List.find?_eq_none.mpr (fun x hx hxk =>
        h (List.any_eq_true.mpr ⟨x, hx, hxk⟩))
    rw [hnone]
    simp

theorem jsMapGet_isSome_of_mem {β : Type} {m : List (String × β)} {k : String}
    (h : k ∈ m.map Prod.fst) : ∃ e, jsMapGet m k = some e := by
  have : (m.find? fun p => p.1 == k).isSome = true := by
    rw [List.find?_isSome]
    obtain ⟨p, hp, rfl⟩ := List.mem_map.mp h
    exact ⟨p, hp, beq_self_eq_true _⟩
  obtain ⟨q, hq⟩ := Option.isSome_iff_exists.mp this
  exact ⟨q.2, by simp [jsMapGet, hq]⟩

theorem keys_jsMapDelete {β : Type} (m : List (String × β)) (k : String) :
    (jsMapDelete m k).map Prod.fst = (m.map Prod.fst).erase k := by
  rw [List.erase_eq_eraseP', jsMapDelete, List.eraseP_map]
  rfl

end MCPDoc

namespace MCPDoc

theorem mem_erase_append_singleton {l : List String} {h x : String}
    (hn : l.Nodup) : x ∈ l.erase h ++ [h] ↔ x ∈ l ∨ x = h := by
  rw [List.mem_append, List.mem_singleton, List.Nodup.mem_erase_iff hn]
  constructor
  · rintro (⟨hne, hx⟩ | rfl)
    · exact Or.inl hx
    · exact Or.inr rfl
  · rintro (hx | rfl)
    · by_cases hxe : x = h
      · exact Or.inr hxe
      · exact Or.inl ⟨hxe, hx⟩
    · exact Or.inr rfl

theorem nodup_erase_append_singleton {l : List String} {h : String}
    (hn : l.Nodup) : (l.erase h ++ [h]).Nodup := by
  rw [List.nodup_append]
  refine ⟨hn.erase h, List.nodup_singleton h, ?_⟩
  intro x hx hx1
  rw [List.mem_singleton] at hx1
  subst hx1
  exact hn.not_mem_erase hx

namespace Cache

/-- Under `WF` the access order and the map have the same size. -/
theorem WF.length_accessOrder {c : EmbeddingCache} (h : WF c) :
    c.accessOrder.length = c.cache.length := by
  obtain ⟨h1, h2, h3⟩ := h
  have hperm : c.accessOrder.Perm (keys c) :=
    (List.perm_ext_iff_of_nodup h1 h2).mpr h3
  have hlen := hperm.length_eq
  simpa [keys] using hlen

/-- What `evictLRU` does when the access order is nonempty: it removes
exactly the least-recently-used key (the head) from the map. -/
theorem evictLRU_cons {c : EmbeddingCache} {lru : String} {rest : List String}
    (hWF : WF c) (h : c.accessOrder = lru :: rest) :
    keys (evictLRU c) = (keys c).erase lru ∧
    (evictLRU c).accessOrder = rest ∧
    (evictLRU c).maxSize = c.maxSize ∧
    (evictLRU c).cache.length = c.cache.length - 1 ∧
    WF (evictLRU c) := by
  obtain ⟨h1, h2, h3⟩ := hWF
  have hlmem : lru ∈ keys c :=
    (h3 lru).mp (by rw [h]; exact List.mem_cons_self _ _)
  have hkeys : keys (evictLRU c) = (keys c).erase lru := by
    simp only [evictLRU, h, keys]
    exact keys_jsMapDelete c.cache lru
  have horder : (evictLRU c).accessOrder = rest := by simp [evictLRU, h]
  have hmax : (evictLRU c).maxSize = c.maxSize := by simp [evictLRU, h]
  have hnodup_rest : rest.Nodup := by
    rw [h] at h1
    exact (List.nodup_cons.mp h1).2
  have hlnm : lru ∉ rest := by
    rw [h] at h1
    exact (List.nodup_cons.mp h1).1
  refine ⟨hkeys, horder, hmax, ?_, ?_, ?_, ?_⟩
  · obtain ⟨p0, hp0m, hp0⟩ := List.mem_map.mp hlmem
    simp only [evictLRU, h, jsMapDelete]
    exact List.length_eraseP_of_mem hp0m (by simp [hp0])
  · rw [horder]
    exact hnodup_rest
  · rw [hkeys]
    exact h2.erase lru
  · intro x
    rw [horder, hkeys]
    constructor
    · intro hx
      have hxo : x ∈ c.accessOrder := by
        rw [h]
        exact List.mem_cons_of_mem _ hx
      have hxk := (h3 x).mp hxo
      have hxne : x ≠ lru := fun he => hlnm (he ▸ hx)
      exact (List.Nodup.mem_erase_iff h2).mpr ⟨hxne, hxk⟩
    · intro hx
      obtain ⟨hxne, hxk⟩ := (List.Nodup.mem_erase_iff h2).mp hx
      have hxo := (h3 x).mpr hxk
      rw [h] at hxo
      rcases List.mem_cons.mp hxo with rfl | hxr
      · exact absurd rfl hxne
      · exact hxr

/-- The store-then-mark step shared by `setEmbedding` (after the optional
eviction): overwrite keeps the key set and size, a fresh key is appended,
the key becomes most recently used, and well-formedness is preserved. -/
theorem insert_step_spec (c₁ : EmbeddingCache) (h : String)
    (entry : CacheEntry) (hWF : WF c₁) :
    (h ∈ keys c₁ →
      keys (updateAccessOrder
          { c₁ with cache := jsMapSet c₁.cache h entry } h) = keys c₁ ∧
      (updateAccessOrder { c₁ with cache := jsMapSet c₁.cache h entry }
          h).cache.length = c₁.cache.length) ∧
    (h ∉ keys c₁ →
      keys (updateAccessOrder
          { c₁ with cache := jsMapSet c₁.cache h entry } h) =
        keys c₁ ++ [h] ∧
      (updateAccessOrder { c₁ with cache := jsMapSet c₁.cache h entry }
          h).cache.length = c₁.cache.length + 1) ∧
    (updateAccessOrder { c₁ with cache := jsMapSet c₁.cache h entry }
        h).maxSize = c₁.maxSize ∧
    (updateAccessOrder { c₁ with cache := jsMapSet c₁.cache h entry }
        h).accessOrder = c₁.accessOrder.erase h ++ [h] ∧
    WF (updateAccessOrder { c₁ with cache := jsMapSet c₁.cache h entry } h) := by
  obtain ⟨h1, h2, h3⟩ := hWF
  have hkeys : ∀ hm : h ∈ keys c₁,
      (jsMapSet c₁.cache h entry).map Prod.fst = keys c₁ :=
    fun hm => keys_jsMapSet_of_mem (any_keys_iff.mpr hm) entry
  have hkeys' : ∀ hm : h ∉ keys c₁,
      (jsMapSet c₁.cache h entry).map Prod.fst = keys c₁ ++ [h] := by
    intro hm
    refine keys_jsMapSet_of_not_mem ?_ entry
    rcases hb : (c₁.cache.any fun p => p.1 == h) with _ | _
    · rfl
    · exact absurd (any_keys_iff.mp hb) hm
  refine ⟨?_, ?_, rfl, rfl, ?_⟩
  · intro hm
    exact ⟨hkeys hm, length_jsMapSet_of_mem (any_keys_iff.mpr hm) entry⟩
  · intro hm
    refine ⟨hkeys' hm, ?_⟩
    refine length_jsMapSet_of_not_mem ?_ entry
    rcases hb : (c₁.cache.any fun p => p.1 == h) with _ | _
    · rfl
    · exact absurd (any_keys_iff.mp hb) hm
  · refine ⟨nodup_erase_append_singleton h1, ?_, ?_⟩
    · by_cases hm : h ∈ keys c₁
      · show ((jsMapSet c₁.cache h entry).map Prod.fst).Nodup
        rw [hkeys hm]
        exact h2
      · show ((jsMapSet c₁.cache h entry).map Prod.fst).Nodup
        rw [hkeys' hm, List.nodup_append]
        exact ⟨h2, List.nodup_singleton h, fun x hx hx1 => by
          rw [List.mem_singleton] at hx1
          exact hm (hx1 ▸ hx)⟩
    · intro x
      show x ∈ c₁.accessOrder.erase h ++ [h] ↔
        x ∈ (jsMapSet c₁.cache h entry).map Prod.fst
      rw [mem_erase_append_singleton h1]
      by_cases hm : h ∈ keys c₁
      · rw [hkeys hm]
        constructor
        · rintro (hx | rfl)
          · exact (h3 x).mp hx
          · exact hm
        · intro hx
          exact Or.inl ((h3 x).mpr hx)
      · rw [hkeys' hm, List.mem_append, List.mem_singleton]
        constructor
        · rintro (hx | rfl)
          · exact Or.inl ((h3 x).mp hx)
          · exact Or.inr rfl
        · rintro (hx | rfl)
          · exact Or.inl ((h3 x).mpr hx)
          · exact Or.inr rfl

end Cache

end MCPDoc

namespace MCPDoc

namespace Cache

/-- `setEmbedding` preserves well-formedness and the size bound as long as
the configured capacity is at least 1, and never touches the capacity. -/
theorem setEmbedding_preserves (hf : String → String) (now : ℕ)
    (c : EmbeddingCache) (text : String) (v : List ℚ)
    (hWF : WF c) (hsize : SizeInv c) (hmax : 1 ≤ c.maxSize) :
    WF (setEmbedding hf now c text v) ∧
    SizeInv (setEmbedding hf now c text v) ∧
    (setEmbedding hf now c text v).maxSize = c.maxSize := by
  simp only [setEmbedding]
  split
  next hp =>
    obtain ⟨hge, hnotin⟩ := hp
    have hfresh : hashKey hf text ∉ keys c := by
      intro hm
      exact hnotin (any_keys_iff.mpr hm)
    have hfull : c.cache.length = c.maxSize := le_antisymm hsize hge
    have hne : c.accessOrder ≠ [] := by
      intro h0
      have := hWF.length_accessOrder
      rw [h0] at this
      simp at this
      omega
    obtain ⟨lru, rest, heq⟩ := List.exists_cons_of_ne_nil hne
    obtain ⟨hk, ho, hm, hl, hwf'⟩ := evictLRU_cons hWF heq
    have hfresh' : hashKey hf text ∉ keys (evictLRU c) := by
      rw [hk]
      intro hmem
      exact hfresh (List.mem_of_mem_erase hmem)
    obtain ⟨-, hnot, hmax', -, hwf2⟩ :=
      insert_step_spec (evictLRU c) (hashKey hf text)
        { embedding := v, timestamp := now, accessCount := 1 } hwf'
    obtain ⟨-, hlen2⟩ := hnot hfresh'
    refine ⟨hwf2, ?_, by rw [hmax', hm]⟩
    unfold SizeInv
    rw [hlen2, hl, hmax', hm]
    omega
  next hp =>
    by_cases hmem : hashKey hf text ∈ keys c
    · obtain ⟨hin, -, hmax', -, hwf2⟩ :=
        insert_step_spec c (hashKey hf text)
          { embedding := v, timestamp := now, accessCount := 1 } hWF
      obtain ⟨-, hlen2⟩ := hin hmem
      refine ⟨hwf2, ?_, hmax'⟩
      unfold SizeInv
      rw [hlen2, hmax']
      exact hsize
    · have hlt : c.cache.length < c.maxSize := by
        rcases not_and_or.mp hp with h1 | h2
        · omega
        · exfalso
          apply h2
          intro hany
          exact hmem (any_keys_iff.mp hany)
      obtain ⟨-, hnot, hmax', -, hwf2⟩ :=
        insert_step_spec c (hashKey hf text)
          { embedding := v, timestamp := now, accessCount := 1 } hWF
      obtain ⟨-, hlen2⟩ := hnot hmem
      refine ⟨hwf2, ?_, hmax'⟩
      unfold SizeInv
      rw [hlen2, hmax']
      omega

/-- What the (N+1)th distinct insertion into a full well-formed cache does:
the head of `accessOrder` (the least-recently-used key) is evicted, the new
key is added, every other key survives, and the cache is full again. -/
theorem setEmbedding_full_evicts (hf : String → String) (now : ℕ)
    (c : EmbeddingCache) (text : String) (v : List ℚ)
    (hWF : WF c) (hfull : c.cache.length = c.maxSize) (hmax : 1 ≤ c.maxSize)
    (hfresh : hashKey hf text ∉ keys c) :
    (∀ k', k' ∈ keys (setEmbedding hf now c text v) ↔
      ((k' ∈ keys c ∧ some k' ≠ c.accessOrder.head?) ∨
        k' = hashKey hf text)) ∧
    WF (setEmbedding hf now c text v) ∧
    (setEmbedding hf now c text v).cache.length = c.maxSize ∧
    (setEmbedding hf now c text v).maxSize = c.maxSize := by
  have hne : c.accessOrder ≠ [] := by
    intro h0
    have := hWF.length_accessOrder
    rw [h0] at this
    simp at this
    omega
  obtain ⟨lru, rest, heq⟩ := List.exists_cons_of_ne_nil hne
  have hany : (c.cache.any fun p => p.1 == hashKey hf text) = false := by
    rw [← Bool.not_eq_true, any_keys_iff]
    exact hfresh
  have hp : c.cache.length ≥ c.maxSize ∧
      ¬((c.cache.any fun p => p.1 == hashKey hf text) = true) := by
    constructor
    · omega
    · simp [hany]
  obtain ⟨hk, ho, hm, hl, hwf'⟩ := evictLRU_cons hWF heq
  have hfresh' : hashKey hf text ∉ keys (evictLRU c) := by
    rw [hk]
    intro hmem
    exact hfresh (List.mem_of_mem_erase hmem)
  obtain ⟨-, hnot, hmax', -, hwf2⟩ :=
    insert_step_spec (evictLRU c) (hashKey hf text)
      { embedding := v, timestamp := now, accessCount := 1 } hwf'
  obtain ⟨hkeys2, hlen2⟩ := hnot hfresh'
  simp only [setEmbedding]
  rw [if_pos hp]
  refine ⟨?_, hwf2, ?_, by rw [hmax', hm]⟩
  · intro k'
    rw [hkeys2]
    rw [List.mem_append, List.mem_singleton, hk,
      List.Nodup.mem_erase_iff hWF.2.1, heq]
    simp only [List.head?_cons]
    constructor
    · rintro (⟨hne', hmem⟩ | rfl)
      · exact Or.inl ⟨hmem, by simpa using hne'⟩
      · exact Or.inr rfl
    · rintro (⟨hmem, hne'⟩ | rfl)
      · exact Or.inl ⟨by simpa using hne', hmem⟩
      · exact Or.inr rfl
  · rw [hlen2, hl, hfull]
    omega

/-- A `getEmbedding` hit: the key set, the size and the capacity are
untouched, the accessed key moves to the end of `accessOrder` (most
recently used), the stored vector is returned, and well-formedness is
preserved. -/
theorem getEmbedding_hit_spec (hf : String → String) (now : ℕ)
    (c : EmbeddingCache) (text : String)
    (hWF : WF c) (hmem : hashKey hf text ∈ keys c) :
    keys (getEmbedding hf now c text).2 = keys c ∧
    (getEmbedding hf now c text).2.cache.length = c.cache.length ∧
    (getEmbedding hf now c text).2.maxSize = c.maxSize ∧
    (getEmbedding hf now c text).2.accessOrder =
      c.accessOrder.erase (hashKey hf text) ++ [hashKey hf text] ∧
    WF (getEmbedding hf now c text).2 ∧
    (getEmbedding hf now c text).1.isSome = true := by
  obtain ⟨entry, hget⟩ := jsMapGet_isSome_of_mem
    (show hashKey hf text ∈ c.cache.map Prod.fst from hmem)
  obtain ⟨hin, -, hmax', horder, hwf2⟩ :=
    insert_step_spec c (hashKey hf text)
      { entry with timestamp := now, accessCount := entry.accessCount + 1 }
      hWF
  obtain ⟨hkeys2, hlen2⟩ := hin hmem
  simp only [getEmbedding, hget]
  exact ⟨hkeys2, hlen2, hmax', horder, hwf2, rfl⟩

end Cache

end MCPDoc

namespace MCPDoc

namespace Cache

/-- The eviction loop of `resize` reaches the bound on any well-formed
cache, preserving well-formedness and the capacity. -/
theorem resizeLoop_spec : ∀ (n : ℕ) (c : EmbeddingCache),
    c.accessOrder.length = n → WF c →
    WF (resizeLoop c) ∧ SizeInv (resizeLoop c) ∧
    (resizeLoop c).maxSize = c.maxSize := by
  intro n
  induction n using Nat.strong_induction_on with
  | _ n ih =>
      intro c hn hWF
      rw [resizeLoop]
      split
      next hgt =>
        split
        next heq =>
          exfalso
          have hlen := hWF.length_accessOrder
          rw [heq] at hlen
          simp at hlen
          omega
        next lru rest heq =>
          obtain ⟨-, ho, hm, -, hwf'⟩ := evictLRU_cons hWF heq
          have hlt : rest.length < n := by
            rw [heq] at hn
            simp at hn
            omega
          have hrec := ih rest.length hlt (evictLRU c) (by rw [ho]) hwf'
          exact ⟨hrec.1, hrec.2.1, by rw [hrec.2.2, hm]⟩
      next hle =>
        exact ⟨hWF, by unfold SizeInv; omega, rfl⟩

/-- `resize` (which installs the new capacity, then evicts LRU entries
while the map is too large) restores the size bound for any new capacity. -/
theorem resize_spec (c : EmbeddingCache) (hWF : WF c) (newSize : ℕ) :
    WF (resize c newSize) ∧ SizeInv (resize c newSize) ∧
    (resize c newSize).maxSize = newSize := by
  have h := resizeLoop_spec ({ c with maxSize := newSize }).accessOrder.length
    { c with maxSize := newSize } rfl hWF
  exact ⟨h.1, h.2.1, h.2.2⟩

/-- The import loop adds at most one map entry per imported record and does
not touch the capacity. -/
theorem import_fold_bound (es : List ImportEntry) :
    ∀ (c₀ : EmbeddingCache),
      ((es.foldl (fun c e =>
        { c with cache := jsMapSet c.cache e.hash
                   { embedding := e.embedding, timestamp := e.timestamp,
                     accessCount := e.accessCount },
                 accessOrder := c.accessOrder ++ [e.hash] }) c₀).cache.length ≤
        c₀.cache.length + es.length) ∧
      (es.foldl (fun c e =>
        { c with cache := jsMapSet c.cache e.hash
                   { embedding := e.embedding, timestamp := e.timestamp,
                     accessCount := e.accessCount },
                 accessOrder := c.accessOrder ++ [e.hash] }) c₀).maxSize =
        c₀.maxSize := by
  induction es with
  | nil => intro c₀; simp
  | cons e rest ih =>
      intro c₀
      rw [List.foldl_cons]
      have hstep : (jsMapSet c₀.cache e.hash
          { embedding := e.embedding, timestamp := e.timestamp,
            accessCount := e.accessCount }).length ≤ c₀.cache.length + 1 := by
        rcases hb : (c₀.cache.any fun p => p.1 == e.hash) with _ | _
        · rw [length_jsMapSet_of_not_mem hb]
        · rw [length_jsMapSet_of_mem hb]
          omega
      obtain ⟨h1, h2⟩ := ih { c₀ with
        cache := jsMapSet c₀.cache e.hash
          { embedding := e.embedding, timestamp := e.timestamp,
            accessCount := e.accessCount },
        accessOrder := c₀.accessOrder ++ [e.hash] }
      constructor
      · refine le_trans h1 ?_
        simp only [List.length_cons]
        omega
      · rw [h2]

end Cache

end MCPDoc

namespace MCPDoc

namespace Cache

/-- `preload` is `setEmbedding` in a loop, so it preserves well-formedness,
the size bound and the capacity as soon as the capacity is at least 1. -/
theorem preload_preserves {hf : String → String} {now : ℕ}
    {c : EmbeddingCache} (hWF : WF c) (hinv : SizeInv c)
    (hmax : 1 ≤ c.maxSize) (ps : List (String × List ℚ)) :
    WF (preload hf now c ps) ∧ SizeInv (preload hf now c ps) ∧
    (preload hf now c ps).maxSize = c.maxSize := by
  unfold preload
  induction ps generalizing c with
  | nil => exact ⟨hWF, hinv, rfl⟩
  | cons p rest ih =>
      rw [List.foldl_cons]
      obtain ⟨h1, h2, h3⟩ :=
        setEmbedding_preserves hf now c p.1 p.2 hWF hinv hmax
      have hrec := ih h1 h2 (by rw [h3]; exact hmax)
      exact ⟨hrec.1, hrec.2.1, by rw [hrec.2.2, h3]⟩

/-- `importCache` respects the size bound whenever the imported entry list
fits within the imported capacity (for instance any data produced by
`exportCache`); `C6_counterexample_importCache_overflows` shows the bound is
violated without that proviso. -/
theorem importCache_sizeInv (c : EmbeddingCache) (d : CacheExport)
    (hinv : SizeInv c) (hfit : d.entries.length ≤ effectiveMax c d) :
    SizeInv (importCache c d) := by
  simp only [importCache]
  split
  next hv => exact hinv
  next hv =>
    obtain ⟨h1, h2⟩ := import_fold_bound d.entries
      { clear c with maxSize := effectiveMax c d }
    unfold SizeInv
    rw [h2]
    refine le_trans h1 ?_
    simpa [clear] using hfit

end Cache

/-! ## Concrete caches for the closed instances (hash collaborator: `id`) -/

/-- The empty cache of capacity 1. -/
def cacheEmpty1 : Cache.EmbeddingCache :=
  { cache := [], accessOrder := [], maxSize := 1, hits := 0, misses := 0 }

/-- The empty cache of capacity 2. -/
def cacheEmpty2 : Cache.EmbeddingCache :=
  { cache := [], accessOrder := [], maxSize := 2, hits := 0, misses := 0 }

/-- A full well-formed one-entry cache of capacity 1. -/
def cacheOne : Cache.EmbeddingCache :=
  { cache := [("a", { embedding := [1], timestamp := 0, accessCount := 1 })],
    accessOrder := ["a"], maxSize := 1, hits := 0, misses := 0 }

/-- A full well-formed two-entry cache of capacity 2, key "a" least
recently used. -/
def cacheTwo : Cache.EmbeddingCache :=
  { cache := [("a", { embedding := [1], timestamp := 0, accessCount := 1 }),
              ("b", { embedding := [2], timestamp := 1, accessCount := 1 })],
    accessOrder := ["a", "b"], maxSize := 2, hits := 0, misses := 0 }

/-- Import data declaring capacity 1 but carrying two distinct entries. -/
def badExport : Cache.CacheExport :=
  { version := "1.0", maxSize := some 1,
    entries :=
      [{ hash := "a", embedding := [1], timestamp := 0, accessCount := 1 },
       { hash := "b", embedding := [2], timestamp := 0, accessCount := 1 }] }

/-- Import data whose single entry fits within its declared capacity 2. -/
def goodExport : Cache.CacheExport :=
  { version := "1.0", maxSize := some 2,
    entries :=
      [{ hash := "x", embedding := [1], timestamp := 0, accessCount := 1 }] }

/-! ## C5 -/

/-- **C5 (amended).**  On a full well-formed cache of capacity `N ≥ 1`,
inserting a text with a fresh key evicts exactly the least-recently-used
key (the head of `accessOrder`) and nothing else; a `getEmbedding` hit
marks the accessed key most recently used (it moves to the end of
`accessOrder`), and — provided `N ≥ 2` — that access protects the key from
the eviction caused by the next fresh insertion.  (The `N ≥ 2` proviso is
forced by `C5_counterexample_capacity_one`: at `N = 1` the freshly accessed
key is also the least recently used one and is evicted anyway.) -/
theorem C5_lru_eviction (hf : String → String) (now1 now2 : ℕ)
    (c : Cache.EmbeddingCache) (t : String) (v : List ℚ)
    (hWF : Cache.WF c) (hfull : c.cache.length = c.maxSize)
    (hmax : 1 ≤ c.maxSize) (hfresh : Cache.hashKey hf t ∉ Cache.keys c) :
    (∀ k', k' ∈ Cache.keys (Cache.setEmbedding hf now1 c t v) ↔
        ((k' ∈ Cache.keys c ∧ some k' ≠ c.accessOrder.head?) ∨
          k' = Cache.hashKey hf t)) ∧
    (∀ t', Cache.hashKey hf t' ∈ Cache.keys c →
      (Cache.getEmbedding hf now1 c t').2.accessOrder.getLast? =
        some (Cache.hashKey hf t') ∧
      (2 ≤ c.maxSize →
        Cache.hashKey hf t' ∈ Cache.keys
          (Cache.setEmbedding hf now2 (Cache.getEmbedding hf now1 c t').2
            t v))) := by
  refine ⟨(Cache.setEmbedding_full_evicts hf now1 c t v
    hWF hfull hmax hfresh).1, ?_⟩
  intro t' hmem
  obtain ⟨hkeys, hlen, hmaxu, horder, hwf', -⟩ :=
    Cache.getEmbedding_hit_spec hf now1 c t' hWF hmem
  refine ⟨by rw [horder]; exact List.getLast?_concat _, ?_⟩
  intro h2
  have hfull' : (Cache.getEmbedding hf now1 c t').2.cache.length =
      (Cache.getEmbedding hf now1 c t').2.maxSize := by
    rw [hlen, hmaxu, hfull]
  have hmax1' : 1 ≤ (Cache.getEmbedding hf now1 c t').2.maxSize := by
    rw [hmaxu]
    omega
  have hfresh2 : Cache.hashKey hf t ∉
      Cache.keys (Cache.getEmbedding hf now1 c t').2 := by
    rw [hkeys]
    exact hfresh
  rw [(Cache.setEmbedding_full_evicts hf now2
    (Cache.getEmbedding hf now1 c t').2 t v hwf' hfull'
    hmax1' hfresh2).1 (Cache.hashKey hf t')]
  left
  refine ⟨by rw [hkeys]; exact hmem, ?_⟩
  rw [horder]
  have hordlen : c.accessOrder.length = c.cache.length :=
    Cache.WF.length_accessOrder hWF
  have hmemord : Cache.hashKey hf t' ∈ c.accessOrder :=
    (hWF.2.2 _).mpr hmem
  have herlen : (c.accessOrder.erase (Cache.hashKey hf t')).length =
      c.accessOrder.length - 1 := List.length_erase_of_mem hmemord
  have hne : c.accessOrder.erase (Cache.hashKey hf t') ≠ [] := by
    intro h0
    rw [h0] at herlen
    simp at herlen
    omega
  obtain ⟨x0, xs, hx⟩ := List.exists_cons_of_ne_nil hne
  rw [hx]
  simp only [List.cons_append, List.head?_cons]
  intro hcontra
  have hx0 : Cache.hashKey hf t' = x0 := by
    injection hcontra
  have hx0mem : x0 ∈ c.accessOrder.erase (Cache.hashKey hf t') := by
    rw [hx]
    exact List.mem_cons_self _ _
  rw [← hx0] at hx0mem
  exact (List.Nodup.not_mem_erase hWF.1) hx0mem

/-- Witness for `C5_lru_eviction` on `cacheTwo` (keys "a" then "b", "a"
least recently used), inserting the fresh text "c" and protecting "a". -/
theorem C5_lru_eviction_witness :
    ("b" ∈ Cache.keys (Cache.setEmbedding id 5 cacheTwo "c" [3]) ↔
      (("b" ∈ Cache.keys cacheTwo ∧
          some "b" ≠ cacheTwo.accessOrder.head?) ∨
        "b" = Cache.hashKey id "c")) ∧
    ((Cache.getEmbedding id 5 cacheTwo "a").2.accessOrder.getLast? =
      some (Cache.hashKey id "a")) ∧
    "a" ∈ Cache.keys
      (Cache.setEmbedding id 6 (Cache.getEmbedding id 5 cacheTwo "a").2
        "c" [3]) := by
  have h := C5_lru_eviction id 5 6 cacheTwo "c" [3]
    ⟨by decide, by decide, fun _ => Iff.rfl⟩ (by decide) (by decide)
    (by decide)
  exact ⟨h.1 "b", (h.2 "a" (by decide)).1, (h.2 "a" (by decide)).2 (by decide)⟩

/-- **C5 counterexample.**  At capacity `N = 1` the protection clause of
the claim fails: the cache holds only "a", a `getEmbedding` hit on "a"
makes it most recently used, yet inserting the fresh key "b" evicts "a"
anyway (something must go), so accessing a key before the (N+1)th insertion
does not protect it. -/
theorem C5_counterexample_capacity_one :
    Cache.keys
      (Cache.setEmbedding id 6 (Cache.getEmbedding id 5 cacheOne "a").2
        "b" [2]) = ["b"] ∧
    "a" ∉ Cache.keys
      (Cache.setEmbedding id 6 (Cache.getEmbedding id 5 cacheOne "a").2
        "b" [2]) := by
  constructor
  · rfl
  · decide

/-! ## C6 -/

/-- **C6 (amended).**  Starting from any well-formed cache within its
bound and with capacity at least 1, the bound `size ≤ maxSize` is preserved
by `setEmbedding`, `resize` (to any new capacity, by evicting LRU entries),
`clear` and `preload`; `importCache` preserves it only when the imported
entry list fits within the effective imported capacity — data produced by
`exportCache` always does, but `importCache` itself performs no capacity
check (see `C6_counterexample_importCache_overflows`). -/
theorem C6_size_invariant (hf : String → String) (now : ℕ)
    (c : Cache.EmbeddingCache) (hWF : Cache.WF c) (hinv : Cache.SizeInv c)
    (hmax : 1 ≤ c.maxSize) :
    (∀ t v, Cache.SizeInv (Cache.setEmbedding hf now c t v)) ∧
    (∀ n, Cache.SizeInv (Cache.resize c n)) ∧
    Cache.SizeInv (Cache.clear c) ∧
    (∀ ps, Cache.SizeInv (Cache.preload hf now c ps)) ∧
    (∀ d, d.entries.length ≤ Cache.effectiveMax c d →
      Cache.SizeInv (Cache.importCache c d)) := by
  refine ⟨?_, ?_, ?_, ?_, ?_⟩
  · intro t v
    exact (Cache.setEmbedding_preserves hf now c t v hWF hinv hmax).2.1
  · intro n
    exact (Cache.resize_spec c hWF n).2.1
  · unfold Cache.SizeInv Cache.clear
    simp
  · intro ps
    exact (Cache.preload_preserves hWF hinv hmax ps).2.1
  · intro d hfit
    exact Cache.importCache_sizeInv c d hinv hfit

/-- Witness for `C6_size_invariant` on the full capacity-1 cache
`cacheOne`, with each operation instantiated concretely. -/
theorem C6_size_invariant_witness :
    Cache.SizeInv (Cache.setEmbedding id 0 cacheOne "b" [2]) ∧
    Cache.SizeInv (Cache.resize cacheOne 0) ∧
    Cache.SizeInv (Cache.clear cacheOne) ∧
    Cache.SizeInv (Cache.preload id 0 cacheOne [("b", [2]), ("c", [3])]) ∧
    Cache.SizeInv (Cache.importCache cacheOne goodExport) := by
  have h := C6_size_invariant id 0 cacheOne
    ⟨by decide, by decide, fun _ => Iff.rfl⟩
    (by unfold Cache.SizeInv; decide) (by decide)
  exact ⟨h.1 "b" [2], h.2.1 0, h.2.2.1, h.2.2.2.1 [("b", [2]), ("c", [3])],
    h.2.2.2.2 goodExport (by decide)⟩

/-- **C6 counterexample.**  `importCache` installs the imported capacity
and inserts every imported entry without any capacity check: importing
`badExport` (declared capacity 1, two distinct entries) into the empty
well-formed capacity-2 cache produces a cache holding 2 entries with
`maxSize = 1`, violating the invariant the claim says every operation
preserves. -/
theorem C6_counterexample_importCache_overflows :
    (Cache.importCache cacheEmpty2 badExport).cache.length = 2 ∧
    (Cache.importCache cacheEmpty2 badExport).maxSize = 1 ∧
    ¬ Cache.SizeInv (Cache.importCache cacheEmpty2 badExport) := by
  refine ⟨rfl, rfl, ?_⟩
  unfold Cache.SizeInv
  decide

/-! ## C7 -/

/-- **C7.**  The cache key is the hash of the trimmed, lower-cased text:
any two texts with the same normalization share one entry — after
`setEmbedding t1 v`, `getEmbedding t2` returns `v` whenever
`t1.trim().toLowerCase() = t2.trim().toLowerCase()`. -/
theorem C7_normalized_texts_share_entry (hf : String → String)
    (now now' : ℕ) (c : Cache.EmbeddingCache) (t1 t2 : String) (v : List ℚ)
    (hnorm : Cache.normalizeKey t1 = Cache.normalizeKey t2) :
    (Cache.getEmbedding hf now'
      (Cache.setEmbedding hf now c t1 v) t2).1 = some v := by
  have hk : Cache.hashKey hf t2 = Cache.hashKey hf t1 := by
    unfold Cache.hashKey
    rw [hnorm]
  have hget : jsMapGet (Cache.setEmbedding hf now c t1 v).cache
      (Cache.hashKey hf t1) =
      some { embedding := v, timestamp := now, accessCount := 1 } :=
    jsMapGet_jsMapSet_self _ _ _
  simp only [Cache.getEmbedding, hk, hget]

/-- Witness for `C7_normalized_texts_share_entry`: " A" and "a  " differ
only by case and whitespace padding and share one entry. -/
theorem C7_normalized_texts_share_entry_witness :
    (Cache.getEmbedding id 1
      (Cache.setEmbedding id 0 cacheEmpty1 " A" [1]) "a  ").1 = some [1] :=
  C7_normalized_texts_share_entry id 0 1 cacheEmpty1 " A" "a  " [1]
    (by decide)

end MCPDoc
